import Mathlib

/-!
Shallow embedding of the concurrent open-addressing engine of
`cuco::static_multimap` (src/unnamed/part_000) and of the identity hash
collaborators (src/include/cuco/detail/hash_functions/identityhash.cuh).

Keys and mapped values are embedded as integers (`ℤ`), slot indices and
capacities as naturals (`ℕ`), and the slot storage as functions from slot
index to (key, value). Machine-width truncations that occur in the source
(the `uint32_t` slot index in the cooperative-group `next_slot`, the
`uint32_t`/`uint64_t` hash results) are kept as explicit `% 2 ^ 32` /
`% 2 ^ 64` operations where they matter.
-/

/-- Embeds `device_view_base::step_size_` as assigned by the cooperative-group
overload of `device_view_base::initial_slot` (src/unnamed/part_000:400):
`(hash(k + 1) % (capacity_ / (cg_size * 2) - 1) + 1) * cg_size * 2`. -/
def step_size (hash : ℕ → ℕ) (capacity cg_size k : ℕ) : ℕ :=
  (hash (k + 1) % (capacity / (cg_size * 2) - 1) + 1) * cg_size * 2

/-- Embeds the slot index produced by the cooperative-group overload of
`device_view_base::initial_slot` (src/unnamed/part_000:402) for the lane of
rank `rank`: `hash(k) % (capacity_ / (cg_size * 2)) * cg_size * 2 + rank * 2`. -/
def initial_slot_cg (hash : ℕ → ℕ) (capacity cg_size k rank : ℕ) : ℕ :=
  hash k % (capacity / (cg_size * 2)) * cg_size * 2 + rank * 2

/-- Embeds the cooperative-group overload of `device_view_base::next_slot`
(src/unnamed/part_000:464-469): the slot index is held in a `uint32_t`
(hence the `% 2 ^ 32`) and stepped by `step_size_` modulo `capacity_`. -/
def next_slot_cg (capacity step idx : ℕ) : ℕ :=
  (idx % 2 ^ 32 + step) % capacity

/-- The window-to-window step size exactly as the specification words it
(spec section 4.2): the secondary hash of `k + 1` reduced modulo
`capacity / 2G - 1`, scaled by `2G` — with no `+ 1`. Stated for comparison
with the `step_size` actually computed by the source. -/
def spec_step_size (hash : ℕ → ℕ) (capacity cg_size k : ℕ) : ℕ :=
  hash (k + 1) % (capacity / (2 * cg_size) - 1) * (2 * cg_size)

/-- Slot index owned by the lane of rank `rank` after `n` cooperative-group
probe steps for key `k`: `initial_slot` followed by `n` applications of the
cooperative-group `next_slot`. -/
def probe_cg (hash : ℕ → ℕ) (capacity cg_size k rank : ℕ) : ℕ → ℕ
  | 0 => initial_slot_cg hash capacity cg_size k rank
  | n + 1 => next_slot_cg capacity (step_size hash capacity cg_size k)
      (probe_cg hash capacity cg_size k rank n)

/-- Helper: reducing an even number modulo an even modulus yields an even
number. -/
theorem mod_even_of_even (x c : ℕ) (hx : x % 2 = 0) (hc : c % 2 = 0) :
    x % c % 2 = 0 := by
  rcases Nat.eq_zero_or_pos c with hc0 | hc0
  · simpa [hc0] using hx
  · have h := Nat.mod_add_div x c
    have h2 : c * (x / c) % 2 = 0 := by
      have := Nat.mul_mod c (x / c) 2
      simp [hc] at this
      omega
    omega

/-- C1 (counterexample): with the identity hash, capacity 32 and group size
8, the step size actually computed by `initial_slot` differs from the one
stated by the claim (the source adds 1 to the reduced secondary hash before
scaling; the claim omits that `+ 1`). -/
theorem step_size_ne_spec_step_size :
    step_size (fun x => x) 32 8 0 ≠ spec_step_size (fun x => x) 32 8 0 := by
  decide

/-- C1 (amended): lane `r` starts at slot index
`(hash k mod (capacity / 2G)) * 2G + 2r`; the window-to-window step size is
`(hash (k+1) mod (capacity / 2G - 1) + 1) * 2G`; and each subsequent slot
index (held as a 32-bit value, exact for indices below `2 ^ 32`) wraps
modulo the total capacity. -/
theorem probe_engine_formulas (hash : ℕ → ℕ) (capacity cg_size k rank idx : ℕ)
    (hidx : idx < 2 ^ 32) :
    initial_slot_cg hash capacity cg_size k rank
        = hash k % (capacity / (2 * cg_size)) * (2 * cg_size) + 2 * rank ∧
    step_size hash capacity cg_size k
        = (hash (k + 1) % (capacity / (2 * cg_size) - 1) + 1) * (2 * cg_size) ∧
    next_slot_cg capacity (step_size hash capacity cg_size k) idx
        = (idx + step_size hash capacity cg_size k) % capacity := by
  have h2g : cg_size * 2 = 2 * cg_size := Nat.mul_comm cg_size 2
  unfold initial_slot_cg step_size next_slot_cg
  rw [Nat.mod_eq_of_lt hidx]
  refine ⟨?_, ?_, rfl⟩ <;> rw [h2g] <;> ring

/-- Witness for `probe_engine_formulas` at hash = identity, capacity 32,
group size 8, key 0, rank 3, index 5. -/
theorem probe_engine_formulas_witness :
    (5 : ℕ) < 2 ^ 32 ∧
    (initial_slot_cg (fun x => x) 32 8 0 3
        = (fun x => x) 0 % (32 / (2 * 8)) * (2 * 8) + 2 * 3 ∧
     step_size (fun x => x) 32 8 0
        = ((fun x => x) (0 + 1) % (32 / (2 * 8) - 1) + 1) * (2 * 8) ∧
     next_slot_cg 32 (step_size (fun x => x) 32 8 0) 5
        = (5 + step_size (fun x => x) 32 8 0) % 32) :=
  ⟨by decide, probe_engine_formulas (fun x => x) 32 8 0 3 5 (by decide)⟩

/-- C10: when the capacity is an exact multiple of `2G` and `capacity / 2G ≥ 2`,
the step-size modulus `capacity / 2G - 1` is nonzero, and every slot index a
lane of rank `r < G` obtains from `initial_slot` and any number of
cooperative-group `next_slot` steps is even and at most `capacity - 2`, so
the lane's two-slot wide read stays in bounds. -/
theorem probe_cg_safety (hash : ℕ → ℕ) (capacity cg_size k rank : ℕ)
    (hdvd : capacity % (cg_size * 2) = 0) (hW : 2 ≤ capacity / (cg_size * 2))
    (hrank : rank < cg_size) :
    capacity / (cg_size * 2) - 1 ≠ 0 ∧
    ∀ n, probe_cg hash capacity cg_size k rank n % 2 = 0 ∧
      probe_cg hash capacity cg_size k rank n + 2 ≤ capacity := by
  have hG : 0 < cg_size := by omega
  have hm : 0 < cg_size * 2 := by omega
  have hdvd' : cg_size * 2 ∣ capacity := Nat.dvd_of_mod_eq_zero hdvd
  have hcap : capacity / (cg_size * 2) * (cg_size * 2) = capacity :=
    Nat.div_mul_cancel hdvd'
  have hWpos : 0 < capacity / (cg_size * 2) := by omega
  have hcappos : 0 < capacity := by
    have := Nat.mul_le_mul (show 2 ≤ capacity / (cg_size * 2) from hW)
      (le_refl (cg_size * 2))
    omega
  have hcapeven : capacity % 2 = 0 := by
    obtain ⟨w, hw⟩ := hdvd'
    have : capacity = 2 * (cg_size * w) := by rw [hw]; ring
    omega
  refine ⟨by omega, ?_⟩
  intro n
  induction n with
  | zero =>
    constructor
    · show initial_slot_cg hash capacity cg_size k rank % 2 = 0
      unfold initial_slot_cg
      have : hash k % (capacity / (cg_size * 2)) * cg_size * 2 + rank * 2
          = (hash k % (capacity / (cg_size * 2)) * cg_size + rank) * 2 := by ring
      rw [this]
      exact Nat.mul_mod_left _ 2
    · show initial_slot_cg hash capacity cg_size k rank + 2 ≤ capacity
      unfold initial_slot_cg
      set a := hash k % (capacity / (cg_size * 2)) with ha
      have haW : a < capacity / (cg_size * 2) := Nat.mod_lt _ hWpos
      obtain ⟨w, hw⟩ : ∃ w, capacity / (cg_size * 2) = w + 1 :=
        ⟨capacity / (cg_size * 2) - 1, by omega⟩
      have h1 : a * cg_size ≤ w * cg_size := Nat.mul_le_mul_right _ (by omega)
      have h2 : (w + 1) * (cg_size * 2) = capacity := by rw [← hw]; exact hcap
      have h3 : (w + 1) * (cg_size * 2) = w * cg_size * 2 + cg_size * 2 := by ring
      obtain ⟨A, hA⟩ : ∃ A, a * cg_size = A := ⟨_, rfl⟩
      obtain ⟨B, hB⟩ : ∃ B, w * cg_size = B := ⟨_, rfl⟩
      rw [hA, hB] at h1
      rw [hB] at h3
      have h4 : B * 2 + cg_size * 2 = capacity := h3.symm.trans h2
      rw [hA]
      omega
  | succ n ih =>
    obtain ⟨ih1, ih2⟩ := ih
    constructor
    · show next_slot_cg capacity (step_size hash capacity cg_size k)
        (probe_cg hash capacity cg_size k rank n) % 2 = 0
      unfold next_slot_cg
      apply mod_even_of_even _ _ _ hcapeven
      have hidx : probe_cg hash capacity cg_size k rank n % 2 ^ 32 % 2 = 0 := by
        rw [Nat.mod_mod_of_dvd _ (by norm_num : (2 : ℕ) ∣ 2 ^ 32)]
        exact ih1
      have hstep : step_size hash capacity cg_size k % 2 = 0 := by
        unfold step_size
        exact Nat.mul_mod_left _ 2
      omega
    · show next_slot_cg capacity (step_size hash capacity cg_size k)
        (probe_cg hash capacity cg_size k rank n) + 2 ≤ capacity
      unfold next_slot_cg
      have hlt : (probe_cg hash capacity cg_size k rank n % 2 ^ 32
          + step_size hash capacity cg_size k) % capacity < capacity :=
        Nat.mod_lt _ hcappos
      have heven : (probe_cg hash capacity cg_size k rank n % 2 ^ 32
          + step_size hash capacity cg_size k) % capacity % 2 = 0 := by
        apply mod_even_of_even _ _ _ hcapeven
        have hidx : probe_cg hash capacity cg_size k rank n % 2 ^ 32 % 2 = 0 := by
          rw [Nat.mod_mod_of_dvd _ (by norm_num : (2 : ℕ) ∣ 2 ^ 32)]
          exact ih1
        have hstep : step_size hash capacity cg_size k % 2 = 0 := by
          unfold step_size
          exact Nat.mul_mod_left _ 2
        omega
      omega

/-- Witness for `probe_cg_safety` at hash = identity, capacity 32, group
size 8, key 0, rank 1, evaluated after 3 probe steps. -/
theorem probe_cg_safety_witness :
    (32 % (8 * 2) = 0 ∧ 2 ≤ 32 / (8 * 2) ∧ 1 < 8) ∧
    (probe_cg (fun x => x) 32 8 0 1 3 % 2 = 0 ∧
     probe_cg (fun x => x) 32 8 0 1 3 + 2 ≤ 32) :=
  ⟨⟨by decide, by decide, by decide⟩,
    (probe_cg_safety (fun x => x) 32 8 0 1 (by decide) (by decide) (by decide)).2 3⟩

/-- Embeds the cooperative-group `ballot(pred)` collective: a bit mask whose
bit `r` is set exactly when lane `r < cg_size` reports `pred r`. -/
def ballot (pred : ℕ → Bool) : ℕ → ℕ
  | 0 => 0
  | g + 1 => ballot pred g + (if pred g then 2 ^ g else 0)

/-- Fuel-driven helper for `ffs`; the fuel only has to dominate the argument. -/
def ffsAux : ℕ → ℕ → ℕ
  | 0, _ => 0
  | fuel + 1, x =>
    if x = 0 then 0 else if x % 2 = 1 then 1 else ffsAux fuel (x / 2) + 1

/-- Embeds CUDA `__ffs`: the 1-based position of the least significant set
bit, `0` for the zero word. -/
def ffs (x : ℕ) : ℕ := ffsAux x x

theorem ffsAux_fuel (fuel fuel' x : ℕ) (h : x ≤ fuel) (h' : x ≤ fuel') :
    ffsAux fuel x = ffsAux fuel' x := by
  induction fuel generalizing fuel' x with
  | zero =>
    have hx : x = 0 := by omega
    subst hx
    cases fuel' <;> simp [ffsAux]
  | succ fuel ih =>
    cases fuel' with
    | zero =>
      have hx : x = 0 := by omega
      subst hx
      simp [ffsAux]
    | succ fuel' =>
      by_cases hx : x = 0
      · subst hx; simp [ffsAux]
      · by_cases hodd : x % 2 = 1
        · simp [ffsAux, hx, hodd]
        · have hrec := ih fuel' (x / 2) (by omega) (by omega)
          simp [ffsAux, hx, hodd, hrec]

theorem ffs_odd (x : ℕ) (h : x % 2 = 1) : ffs x = 1 := by
  have hx : x ≠ 0 := by omega
  obtain ⟨y, rfl⟩ : ∃ y, x = y + 1 := ⟨x - 1, by omega⟩
  simp [ffs, ffsAux, h]

theorem ffs_even (x : ℕ) (h0 : x ≠ 0) (h : x % 2 = 0) :
    ffs x = ffs (x / 2) + 1 := by
  obtain ⟨y, rfl⟩ : ∃ y, x = y + 1 := ⟨x - 1, by omega⟩
  show ffsAux (y + 1) (y + 1) = ffsAux ((y + 1) / 2) ((y + 1) / 2) + 1
  have h1 : ffsAux (y + 1) (y + 1)
      = ffsAux y ((y + 1) / 2) + 1 := by
    simp [ffsAux, h0, h]
  have h2 : ffsAux y ((y + 1) / 2) = ffsAux ((y + 1) / 2) ((y + 1) / 2) :=
    ffsAux_fuel _ _ _ (by omega) (le_refl _)
  omega

theorem ffs_pos (x : ℕ) (h0 : x ≠ 0) : 0 < ffs x := by
  rcases Nat.even_or_odd x with he | ho
  · have : x % 2 = 0 := Nat.even_iff.mp he
    rw [ffs_even x h0 this]; omega
  · have : x % 2 = 1 := Nat.odd_iff.mp ho
    rw [ffs_odd x this]; omega

theorem ballot_eq_zero_iff (pred : ℕ → Bool) (g : ℕ) :
    ballot pred g = 0 ↔ ∀ r, r < g → pred r = false := by
  induction g with
  | zero => simp [ballot]
  | succ g ih =>
    constructor
    · intro h r hr
      have h1 : ballot pred g = 0 ∧ (if pred g then 2 ^ g else 0) = 0 := by
        have := Nat.pos_pow_of_pos g (show 0 < 2 by omega)
        by_cases hp : pred g <;> simp [ballot, hp] at h <;> simp [ballot, hp, h]
      rcases Nat.lt_or_ge r g with hlt | hge
      · exact ih.mp h1.1 r hlt
      · have hrg : r = g := by omega
        subst hrg
        by_cases hp : pred r
        · exfalso
          have h2 := h1.2
          rw [if_pos hp] at h2
          have := Nat.pos_pow_of_pos r (show 0 < 2 by omega)
          omega
        · simpa using hp
    · intro h
      have h1 : ballot pred g = 0 := ih.mpr (fun r hr => h r (by omega))
      have h2 : pred g = false := h g (by omega)
      simp [ballot, h1, h2]

theorem ballot_mod_two (pred : ℕ → Bool) (g : ℕ) (hg : 0 < g) :
    ballot pred g % 2 = if pred 0 then 1 else 0 := by
  induction g with
  | zero => omega
  | succ g ih =>
    rcases Nat.eq_zero_or_pos g with hg0 | hg0
    · subst hg0
      by_cases hp : pred 0 <;> simp [ballot, hp]
    · have h2g : (if pred g then 2 ^ g else 0) % 2 = 0 := by
        by_cases hp : pred g
        · simp only [if_pos hp]
          obtain ⟨m, hm⟩ : ∃ m, g = m + 1 := ⟨g - 1, by omega⟩
          subst hm
          simp [Nat.pow_succ, Nat.mul_mod]
        · simp [hp]
      have := ih hg0
      show (ballot pred g + (if pred g then 2 ^ g else 0)) % 2 = _
      by_cases hp : pred 0 <;> simp [hp] at this ⊢ <;> omega

theorem ballot_div_two (pred : ℕ → Bool) (g : ℕ) (hg : 0 < g) :
    ballot pred g / 2 = ballot (fun r => pred (r + 1)) (g - 1) := by
  induction g with
  | zero => omega
  | succ g ih =>
    rcases Nat.eq_zero_or_pos g with hg0 | hg0
    · subst hg0
      by_cases hp : pred 0 <;> simp [ballot, hp]
    · obtain ⟨m, hm⟩ : ∃ m, g = m + 1 := ⟨g - 1, by omega⟩
      have hstep : (if pred g then 2 ^ g else 0)
          = 2 * (if pred g then 2 ^ (g - 1) else 0) := by
        by_cases hp : pred g <;> simp [hp, hm, Nat.pow_succ] <;> ring
      show (ballot pred g + (if pred g then 2 ^ g else 0)) / 2 = _
      rw [hstep, Nat.add_mul_div_left _ _ (show 0 < 2 by omega), ih hg0]
      have : ballot (fun r => pred (r + 1)) (g + 1 - 1)
          = ballot (fun r => pred (r + 1)) (g - 1)
            + (if pred g then 2 ^ (g - 1) else 0) := by
        simp [hm, ballot]
      omega

/-- The lane computed by `ffs(ballot) - 1` is the lowest-ranked lane whose
predicate holds. -/
theorem ffs_ballot_spec (pred : ℕ → Bool) (g : ℕ) (h : ballot pred g ≠ 0) :
    ffs (ballot pred g) - 1 < g ∧
    pred (ffs (ballot pred g) - 1) = true ∧
    ∀ r, r < ffs (ballot pred g) - 1 → pred r = false := by
  induction g generalizing pred with
  | zero => simp [ballot] at h
  | succ g ih =>
    have hgpos : 0 < g + 1 := by omega
    by_cases hp : pred 0
    · have hmod : ballot pred (g + 1) % 2 = 1 := by
        rw [ballot_mod_two pred (g + 1) hgpos]; simp [hp]
      rw [ffs_odd _ hmod]
      refine ⟨by omega, by simpa using hp, by omega⟩
    · have hmod : ballot pred (g + 1) % 2 = 0 := by
        rw [ballot_mod_two pred (g + 1) hgpos]; simp [hp]
      have hdiv : ballot pred (g + 1) / 2 = ballot (fun r => pred (r + 1)) g :=
        ballot_div_two pred (g + 1) hgpos
      have hne : ballot (fun r => pred (r + 1)) g ≠ 0 := by
        intro h0
        apply h
        omega
      obtain ⟨ih1, ih2, ih3⟩ := ih (fun r => pred (r + 1)) hne
      have hffs : ffs (ballot pred (g + 1))
          = ffs (ballot (fun r => pred (r + 1)) g) + 1 := by
        rw [ffs_even _ h hmod, hdiv]
      have hpos := ffs_pos _ hne
      rw [hffs]
      obtain ⟨s, hs⟩ : ∃ s, ffs (ballot (fun r => pred (r + 1)) g) = s + 1 :=
        ⟨ffs (ballot (fun r => pred (r + 1)) g) - 1, by omega⟩
      rw [hs] at ih1 ih2 ih3 ⊢
      simp only [Nat.add_sub_cancel] at ih1 ih2 ih3 ⊢
      refine ⟨by omega, ih2, ?_⟩
      intro r hr
      cases r with
      | zero => simpa using hp
      | succ r => exact ih3 r (by omega)

/-- Embeds the per-slot emptiness test of `device_mutable_view::insert`
(src/unnamed/part_000:675-676): a slot is empty when its key field equals
the empty-key sentinel. `read` is the slots state captured by the wide
vector load, `s` a slot index. -/
def first_slot_is_empty (read : ℕ → ℤ × ℤ) (ek : ℤ) (s : ℕ) : Bool :=
  decide ((read s).1 = ek)

/-- Embeds the lane-local vote `first_slot_is_empty or second_slot_is_empty`
(src/unnamed/part_000:678); `p r` is the slot index owned by lane `r`. -/
def lane_vote (read : ℕ → ℤ × ℤ) (ek : ℤ) (p : ℕ → ℕ) (r : ℕ) : Bool :=
  first_slot_is_empty read ek (p r) || first_slot_is_empty read ek (p r + 1)

/-- Embeds `window_contains_empty = g.ballot(...)` (src/unnamed/part_000:678). -/
def window_contains_empty (read : ℕ → ℤ × ℤ) (ek : ℤ) (p : ℕ → ℕ)
    (cg_size : ℕ) : ℕ :=
  ballot (lane_vote read ek p) cg_size

/-- Embeds `src_lane = __ffs(window_contains_empty) - 1`
(src/unnamed/part_000:682). -/
def src_lane (read : ℕ → ℤ × ℤ) (ek : ℤ) (p : ℕ → ℕ) (cg_size : ℕ) : ℕ :=
  ffs (window_contains_empty read ek p cg_size) - 1

/-- Embeds `insert_location = current_slot + !(first_slot_is_empty)`
(src/unnamed/part_000:687) for the claiming lane. -/
def insert_location (read : ℕ → ℤ × ℤ) (ek : ℤ) (p : ℕ → ℕ)
    (cg_size : ℕ) : ℕ :=
  p (src_lane read ek p cg_size)
    + (if first_slot_is_empty read ek (p (src_lane read ek p cg_size)) then 0 else 1)

/-- C2: when the group ballot reports an empty slot in the window, the lane
chosen to attempt the claim is exactly the lowest-ranked lane that reported
an empty slot, and it targets its first slot when that one is empty
(preferring the first when both are), otherwise its second slot — which is
then necessarily empty. -/
theorem src_lane_lowest_and_location (read : ℕ → ℤ × ℤ) (ek : ℤ) (p : ℕ → ℕ)
    (cg_size : ℕ) (h : window_contains_empty read ek p cg_size ≠ 0) :
    src_lane read ek p cg_size < cg_size ∧
    lane_vote read ek p (src_lane read ek p cg_size) = true ∧
    (∀ r, r < src_lane read ek p cg_size → lane_vote read ek p r = false) ∧
    ((read (p (src_lane read ek p cg_size))).1 = ek →
      insert_location read ek p cg_size = p (src_lane read ek p cg_size)) ∧
    ((read (p (src_lane read ek p cg_size))).1 ≠ ek →
      (read (p (src_lane read ek p cg_size) + 1)).1 = ek ∧
      insert_location read ek p cg_size = p (src_lane read ek p cg_size) + 1) := by
  obtain ⟨h1, h2, h3⟩ := ffs_ballot_spec (lane_vote read ek p) cg_size h
  refine ⟨h1, h2, h3, ?_, ?_⟩
  · intro hfe
    unfold insert_location
    simp [first_slot_is_empty, hfe]
  · intro hfe
    have hsecond : (read (p (src_lane read ek p cg_size) + 1)).1 = ek := by
      have := h2
      unfold lane_vote first_slot_is_empty at this
      simp only [Bool.or_eq_true, decide_eq_true_eq] at this
      tauto
    refine ⟨hsecond, ?_⟩
    unfold insert_location
    simp [first_slot_is_empty, hfe]

/-- Witness for `src_lane_lowest_and_location`: a window whose lane 2 owns
the only empty slot (at index 5, the lane's second slot). -/
theorem src_lane_lowest_and_location_witness :
    window_contains_empty
        (fun i => if i = 5 then ((-1 : ℤ), (-1 : ℤ)) else (7, 7)) (-1)
        (fun r => 2 * r) 8 ≠ 0 ∧
    src_lane (fun i => if i = 5 then ((-1 : ℤ), (-1 : ℤ)) else (7, 7)) (-1)
        (fun r => 2 * r) 8 = 2 ∧
    insert_location (fun i => if i = 5 then ((-1 : ℤ), (-1 : ℤ)) else (7, 7)) (-1)
        (fun r => 2 * r) 8 = 5 := by
  refine ⟨by decide, by decide, ?_⟩
  have h := src_lane_lowest_and_location
    (fun i => if i = 5 then ((-1 : ℤ), (-1 : ℤ)) else (7, 7)) (-1)
    (fun r => 2 * r) 8 (by decide)
  have h5 := (h.2.2.2.2 (by decide)).2
  have hs : src_lane (fun i => if i = 5 then ((-1 : ℤ), (-1 : ℤ)) else (7, 7)) (-1)
      (fun r => 2 * r) 8 = 2 := by decide
  rw [hs] at h5
  simpa using h5

/-- Embeds the value-field CAS retry loop of `device_mutable_view::insert`
(src/unnamed/part_000:695-700): each iteration re-sets the expected value to
the empty-value sentinel and retries the compare-and-swap with the new
value `v`. `interf i f` is the content of the value field just before the
`i`-th CAS, accounting for interference by concurrent inserts; `i` is the
index of the next CAS, `fuel` bounds the number of iterations modelled,
`field` is the current field content. Returns (value_success, final field). -/
def value_cas_loop (ev v : ℤ) (interf : ℕ → ℤ → ℤ) : ℕ → ℕ → ℤ → Bool × ℤ
  | _, 0, field => (false, field)
  | i, fuel + 1, field =>
    let f := interf i field
    if f = ev then (true, v) else value_cas_loop ev v interf (i + 1) fuel f

/-- Embeds the claiming lane's CAS sequence of `device_mutable_view::insert`
(src/unnamed/part_000:685-704): the key CAS from the empty-key sentinel, the
speculative value CAS executed before `key_success` is examined, the value
retry loop on key success, and the store of the empty-value sentinel when
the key CAS failed but the speculative value CAS succeeded. `slot0` is the
(key, value) content of `insert_location` when the key CAS executes;
`interf i f` is the interference on the value field before the `i`-th value
CAS. Returns (status = SUCCESS, final slot content). -/
def claim_slot (ek ev k v : ℤ) (slot0 : ℤ × ℤ) (interf : ℕ → ℤ → ℤ)
    (fuel : ℕ) : Bool × (ℤ × ℤ) :=
  let f0 := interf 0 slot0.2
  if slot0.1 = ek then
    if f0 = ev then (true, (k, v))
    else
      let res := value_cas_loop ev v interf 1 fuel f0
      (res.1, (k, res.2))
  else
    if f0 = ev then (false, (slot0.1, ev))
    else (false, (slot0.1, f0))

/-- Content of the claimed slot's value field just before the `n`-th value
CAS of the claiming lane, assuming all earlier CASes failed: the initial
content `f0` evolved by the interference alone. -/
def value_field_trace (interf : ℕ → ℤ → ℤ) (f0 : ℤ) : ℕ → ℤ
  | 0 => interf 0 f0
  | n + 1 => interf (n + 1) (value_field_trace interf f0 n)

theorem value_cas_loop_true_val (ev v : ℤ) (interf : ℕ → ℤ → ℤ) :
    ∀ fuel i field, (value_cas_loop ev v interf i fuel field).1 = true →
      (value_cas_loop ev v interf i fuel field).2 = v := by
  intro fuel
  induction fuel with
  | zero => intro i field h; simp [value_cas_loop] at h
  | succ fuel ih =>
    intro i field h
    by_cases hf : interf i field = ev
    · simp [value_cas_loop, hf]
    · simp only [value_cas_loop, if_neg hf] at h ⊢
      exact ih _ _ h

theorem value_cas_loop_iff (ev v : ℤ) (interf : ℕ → ℤ → ℤ) (f0 : ℤ) :
    ∀ fuel i, 1 ≤ i →
      ((value_cas_loop ev v interf i fuel (value_field_trace interf f0 (i - 1))).1 = true ↔
        ∃ n, i ≤ n ∧ n ≤ i - 1 + fuel ∧ value_field_trace interf f0 n = ev) := by
  intro fuel
  induction fuel with
  | zero =>
    intro i hi
    simp only [value_cas_loop]
    constructor
    · intro h; cases h
    · rintro ⟨n, h1, h2, _⟩; omega
  | succ fuel ih =>
    intro i hi
    obtain ⟨m, rfl⟩ : ∃ m, i = m + 1 := ⟨i - 1, by omega⟩
    have htr : interf (m + 1) (value_field_trace interf f0 (m + 1 - 1))
        = value_field_trace interf f0 (m + 1) := by
      simp [value_field_trace]
    by_cases hf : value_field_trace interf f0 (m + 1) = ev
    · simp only [value_cas_loop, htr, if_pos hf]
      constructor
      · intro _
        exact ⟨m + 1, by omega, by omega, hf⟩
      · intro _; trivial
    · simp only [value_cas_loop, htr, if_neg hf]
      have htr2 : value_field_trace interf f0 (m + 1)
          = value_field_trace interf f0 (m + 2 - 1) := by norm_num
      rw [htr2]
      rw [ih (m + 2) (by omega)]
      constructor
      · rintro ⟨n, h1, h2, h3⟩
        exact ⟨n, by omega, by omega, h3⟩
      · rintro ⟨n, h1, h2, h3⟩
        have hn : m + 2 ≤ n := by
          rcases Nat.eq_or_lt_of_le h1 with he | hl
          · exfalso; rw [← he] at h3; exact hf h3
          · omega
        exact ⟨n, hn, by omega, h3⟩
        
/-- C3: once the key CAS from the empty-key sentinel has succeeded, the
value field is written by a CAS loop whose expected value is re-set to the
empty-value sentinel on each failure; the insert reports success exactly
when one of those value CASes finds the sentinel (i.e. the loop runs until
the value write succeeds), and on success the slot holds exactly the
inserted (key, value) pair. -/
theorem claim_slot_two_phase (ek ev k v : ℤ) (slot0 : ℤ × ℤ)
    (interf : ℕ → ℤ → ℤ) (fuel : ℕ) (hk : slot0.1 = ek) :
    ((claim_slot ek ev k v slot0 interf fuel).1 = true ↔
      ∃ n, n ≤ fuel ∧ value_field_trace interf slot0.2 n = ev) ∧
    ((claim_slot ek ev k v slot0 interf fuel).1 = true →
      (claim_slot ek ev k v slot0 interf fuel).2 = (k, v)) := by
  have h0 : interf 0 slot0.2 = value_field_trace interf slot0.2 0 := rfl
  by_cases hf0 : interf 0 slot0.2 = ev
  · constructor
    · simp only [claim_slot, if_pos hk, if_pos hf0]
      constructor
      · intro _
        exact ⟨0, by omega, by rw [← h0]; exact hf0⟩
      · intro _; trivial
    · simp [claim_slot, hk, hf0]
  · have hloop := value_cas_loop_iff ev v interf slot0.2 fuel 1 (by omega)
    have htr0 : value_field_trace interf slot0.2 (1 - 1)
        = interf 0 slot0.2 := rfl
    rw [htr0] at hloop
    constructor
    · simp only [claim_slot, if_pos hk, if_neg hf0]
      rw [hloop]
      constructor
      · rintro ⟨n, h1, h2, h3⟩
        exact ⟨n, by omega, h3⟩
      · rintro ⟨n, h1, h3⟩
        have hn : 1 ≤ n := by
          rcases Nat.eq_zero_or_pos n with h | h
          · subst h; rw [← h0] at h3; exact absurd h3 hf0
          · exact h
        exact ⟨n, hn, by omega, h3⟩
    · intro hs
      simp only [claim_slot, if_pos hk, if_neg hf0] at hs ⊢
      have := value_cas_loop_true_val ev v interf fuel 1 (interf 0 slot0.2) hs
      rw [this]

/-- Witness for `claim_slot_two_phase`: an empty slot, no interference. -/
theorem claim_slot_two_phase_witness :
    ((-1 : ℤ), (-1 : ℤ)).1 = (-1 : ℤ) ∧
    (((claim_slot (-1) (-1) 1 10 ((-1 : ℤ), (-1 : ℤ)) (fun _ f => f) 2).1 = true ↔
      ∃ n, n ≤ 2 ∧ value_field_trace (fun _ f => f) ((-1 : ℤ), (-1 : ℤ)).2 n = -1) ∧
     ((claim_slot (-1) (-1) 1 10 ((-1 : ℤ), (-1 : ℤ)) (fun _ f => f) 2).1 = true →
      (claim_slot (-1) (-1) 1 10 ((-1 : ℤ), (-1 : ℤ)) (fun _ f => f) 2).2 = (1, 10))) :=
  ⟨rfl, claim_slot_two_phase (-1) (-1) 1 10 ((-1 : ℤ), (-1 : ℤ)) (fun _ f => f) 2 rfl⟩

/-- Helper: an attempt whose key CAS fails leaves the slot exactly as it
found it (the speculative value CAS, when it succeeded, is rolled back by
the store of the empty-value sentinel). Stated without interference. -/
theorem claim_slot_fail_id (ek ev k v : ℤ) (slot0 : ℤ × ℤ) (fuel : ℕ)
    (h : slot0.1 ≠ ek) :
    claim_slot ek ev k v slot0 (fun _ f => f) fuel = (false, slot0) := by
  obtain ⟨a, b⟩ := slot0
  simp only at h
  by_cases hv : b = ev
  · subst hv; simp [claim_slot, h]
  · simp [claim_slot, h, hv]

/-- C9 (counterexample): an insert attempt whose key CAS fails on a slot
whose value field is not the empty-value sentinel does not leave the value
field equal to the empty-value sentinel (it leaves the foreign value 7 in
place untouched). -/
theorem claim_slot_fail_value_not_sentinel :
    (claim_slot (-1) (-1) 1 10 ((5 : ℤ), (7 : ℤ)) (fun _ f => f) 3).1 = false ∧
    (claim_slot (-1) (-1) 1 10 ((5 : ℤ), (7 : ℤ)) (fun _ f => f) 3).2.2 ≠ (-1 : ℤ) := by
  constructor
  · rfl
  · decide

/-- C9 (amended): the claiming lane performs the value CAS before examining
the key CAS outcome; whenever the key CAS fails but the speculative value
CAS succeeded, the lane stores the empty-value sentinel back, so an insert
attempt that fails to claim a slot leaves the slot's key and value fields
exactly as they were when the attempt executed — in particular it never
leaves its own speculative value behind. -/
theorem claim_slot_fail_leaves_slot (ek ev k v : ℤ) (slot0 : ℤ × ℤ)
    (fuel : ℕ) (h : slot0.1 ≠ ek) :
    claim_slot ek ev k v slot0 (fun _ f => f) fuel = (false, slot0) :=
  claim_slot_fail_id ek ev k v slot0 fuel h

/-- Witness for `claim_slot_fail_leaves_slot` on the occupied slot (5, 7). -/
theorem claim_slot_fail_leaves_slot_witness :
    ((5 : ℤ), (7 : ℤ)).1 ≠ (-1 : ℤ) ∧
    claim_slot (-1) (-1) 1 10 ((5 : ℤ), (7 : ℤ)) (fun _ f => f) 3
      = (false, ((5 : ℤ), (7 : ℤ))) :=
  ⟨by decide, claim_slot_fail_leaves_slot (-1) (-1) 1 10 ((5 : ℤ), (7 : ℤ)) 3 (by decide)⟩

/-- Embeds one iteration of the `while (true)` loop of the cooperative-group
`device_mutable_view::insert` (src/unnamed/part_000:668-720). `p r` is lane
`r`'s `current_slot` index, `read` the slots state captured by the wide
loads, `now` the slots state the claiming lane's CASes execute against
(allowing another insert to race between load and CAS), `interf` the
interference on the claimed value field. Returns (group voted SUCCESS —
the loop returns, slots state after the iteration, lane pointers for the
next iteration). -/
def insert_step_cg (cg_size : ℕ) (ek ev : ℤ) (kv : ℤ × ℤ) (capacity step : ℕ)
    (p : ℕ → ℕ) (read now : ℕ → ℤ × ℤ) (interf : ℕ → ℤ → ℤ) (fuel : ℕ) :
    Bool × (ℕ → ℤ × ℤ) × (ℕ → ℕ) :=
  if window_contains_empty read ek p cg_size = 0 then
    (false, now, fun r => next_slot_cg capacity step (p r))
  else
    ((claim_slot ek ev kv.1 kv.2 (now (insert_location read ek p cg_size)) interf fuel).1,
     fun i => if i = insert_location read ek p cg_size
       then (claim_slot ek ev kv.1 kv.2 (now (insert_location read ek p cg_size)) interf fuel).2
       else now i,
     p)

/-- C4: each iteration of the cooperative insert loop makes a three-way
decision. When some lane saw an empty slot in the window, the iteration's
outcome flag is exactly the claiming lane's SUCCESS status (the group
OR-vote: return on success, otherwise retry) and the lane pointers are not
advanced; when no lane saw an empty slot, nothing is claimed and every lane
advances its pointer by the engine's group step. -/
theorem insert_step_cg_decision (cg_size : ℕ) (ek ev : ℤ) (kv : ℤ × ℤ)
    (capacity step : ℕ) (p : ℕ → ℕ) (read now : ℕ → ℤ × ℤ)
    (interf : ℕ → ℤ → ℤ) (fuel : ℕ) :
    ((∃ r, r < cg_size ∧ lane_vote read ek p r = true) →
      (insert_step_cg cg_size ek ev kv capacity step p read now interf fuel).1
          = (claim_slot ek ev kv.1 kv.2
              (now (insert_location read ek p cg_size)) interf fuel).1 ∧
      (insert_step_cg cg_size ek ev kv capacity step p read now interf fuel).2.2 = p) ∧
    ((∀ r, r < cg_size → lane_vote read ek p r = false) →
      insert_step_cg cg_size ek ev kv capacity step p read now interf fuel
        = (false, now, fun r => next_slot_cg capacity step (p r))) := by
  constructor
  · rintro ⟨r, hr, hv⟩
    have hw : window_contains_empty read ek p cg_size ≠ 0 := by
      intro h0
      have := (ballot_eq_zero_iff (lane_vote read ek p) cg_size).mp h0 r hr
      rw [hv] at this
      cases this
    simp [insert_step_cg, hw]
  · intro hall
    have hw : window_contains_empty read ek p cg_size = 0 :=
      (ballot_eq_zero_iff (lane_vote read ek p) cg_size).mpr hall
    simp [insert_step_cg, hw]

/-- Witness for `insert_step_cg_decision`: advance case on a window with no
empty slot, return/retry case on a window with one. -/
theorem insert_step_cg_decision_witness :
    (∀ r, r < 8 →
      lane_vote (fun _ => ((7 : ℤ), (7 : ℤ))) (-1) (fun r => 2 * r) r = false) ∧
    insert_step_cg 8 (-1) (-1) ((1 : ℤ), (10 : ℤ)) 32 16 (fun r => 2 * r)
        (fun _ => ((7 : ℤ), (7 : ℤ))) (fun _ => ((7 : ℤ), (7 : ℤ)))
        (fun _ f => f) 2
      = (false, fun _ => ((7 : ℤ), (7 : ℤ)),
         fun r => next_slot_cg 32 16 ((fun r => 2 * r) r)) :=
  ⟨by decide,
    (insert_step_cg_decision 8 (-1) (-1) ((1 : ℤ), (10 : ℤ)) 32 16
      (fun r => 2 * r) (fun _ => ((7 : ℤ), (7 : ℤ)))
      (fun _ => ((7 : ℤ), (7 : ℤ))) (fun _ f => f) 2).2 (by decide)⟩

/-- C5: a slot that holds a fully published pair (key and value both
non-sentinel) is never modified by a later insert iteration: the key field
is only written by a CAS expecting the empty-key sentinel, which fails on
it, and the speculative value CAS (which expects the empty-value sentinel)
fails as well, so entries are never erased or overwritten. Stated for an
iteration without concurrent interference on the claimed value field. -/
theorem insert_step_cg_preserves_published (cg_size : ℕ) (ek ev : ℤ)
    (kv : ℤ × ℤ) (capacity step : ℕ) (p : ℕ → ℕ) (read now : ℕ → ℤ × ℤ)
    (fuel i : ℕ) (h1 : (now i).1 ≠ ek) (h2 : (now i).2 ≠ ev) :
    (insert_step_cg cg_size ek ev kv capacity step p read now
      (fun _ f => f) fuel).2.1 i = now i := by
  unfold insert_step_cg
  by_cases hw : window_contains_empty read ek p cg_size = 0
  · simp [hw]
  · by_cases hi : i = insert_location read ek p cg_size
    · subst hi
      rw [if_neg hw]
      show (if insert_location read ek p cg_size = insert_location read ek p cg_size
          then (claim_slot ek ev kv.1 kv.2
            (now (insert_location read ek p cg_size)) (fun _ f => f) fuel).2
          else now (insert_location read ek p cg_size))
        = now (insert_location read ek p cg_size)
      rw [if_pos rfl, claim_slot_fail_id ek ev kv.1 kv.2 _ fuel h1]
    · simp [insert_step_cg, hw, hi]

/-- Witness for `insert_step_cg_preserves_published`: slot 0 holds the
published pair (5, 7); an insert of (1, 10) into the window leaves it
untouched. -/
theorem insert_step_cg_preserves_published_witness :
    ((fun i => if i = 0 then ((5 : ℤ), (7 : ℤ)) else (-1, -1)) 0).1 ≠ (-1 : ℤ) ∧
    ((fun i => if i = 0 then ((5 : ℤ), (7 : ℤ)) else (-1, -1)) 0).2 ≠ (-1 : ℤ) ∧
    (insert_step_cg 8 (-1) (-1) ((1 : ℤ), (10 : ℤ)) 32 16 (fun r => 2 * r)
        (fun i => if i = 0 then ((5 : ℤ), (7 : ℤ)) else (-1, -1))
        (fun i => if i = 0 then ((5 : ℤ), (7 : ℤ)) else (-1, -1))
        (fun _ f => f) 2).2.1 0
      = (fun i => if i = 0 then ((5 : ℤ), (7 : ℤ)) else (-1, -1)) 0 :=
  ⟨by decide, by decide,
    insert_step_cg_preserves_published 8 (-1) (-1) ((1 : ℤ), (10 : ℤ)) 32 16
      (fun r => 2 * r)
      (fun i => if i = 0 then ((5 : ℤ), (7 : ℤ)) else (-1, -1))
      (fun i => if i = 0 then ((5 : ℤ), (7 : ℤ)) else (-1, -1)) 2 0
      (by decide) (by decide)⟩

/-- Embeds `FancyIterator::next_slot` (src/unnamed/part_000:850-857) on slot
indices: advance by one, wrapping to the first slot past the end. -/
def fancy_next_slot (capacity i : ℕ) : ℕ :=
  if i + 1 < capacity then i + 1 else 0

/-- Embeds the `while` loop of `FancyIterator::operator++`
(src/unnamed/part_000:840-847): starting at slot `i`, stop at the first slot
whose key equals `key` (`some (some i)`), become the end iterator when a
slot holding the empty-key sentinel is reached first (`some none`), and keep
stepping otherwise; `none` means the fuel ran out (the loop is still
running). `keyAt` is the key field of each slot. -/
def fancy_scan (keyAt : ℕ → ℤ) (key ek : ℤ) (capacity : ℕ) :
    ℕ → ℕ → Option (Option ℕ)
  | 0, _ => none
  | fuel + 1, i =>
    if keyAt i = key then some (some i)
    else if keyAt i = ek then some none
    else fancy_scan keyAt key ek capacity fuel (fancy_next_slot capacity i)

/-- Embeds `FancyIterator::operator++` (src/unnamed/part_000:837-848): first
step past the current slot, then scan. -/
def fancy_advance (keyAt : ℕ → ℤ) (key ek : ℤ) (capacity fuel i : ℕ) :
    Option (Option ℕ) :=
  fancy_scan keyAt key ek capacity fuel (fancy_next_slot capacity i)

theorem fancy_next_slot_eq_mod (capacity i : ℕ) (h : i < capacity) :
    fancy_next_slot capacity i = (i + 1) % capacity := by
  unfold fancy_next_slot
  by_cases h1 : i + 1 < capacity
  · rw [if_pos h1, Nat.mod_eq_of_lt h1]
  · have : i + 1 = capacity := by omega
    rw [if_neg h1, this, Nat.mod_self]

/-- C6: advancing the find_all iterator continues the same linear probe
sequence past the current slot `i`: if the first position among
`(i+1+t) % capacity`, `t = 0, 1, ...` whose key is `key` or the empty-key
sentinel holds `key`, the iterator stops there (yielding matches in probe
order); if it holds the sentinel, the iterator becomes the end iterator.
The scan is forward-only and never restarts. -/
theorem fancy_advance_spec (keyAt : ℕ → ℤ) (key ek : ℤ)
    (capacity fuel i t : ℕ) (hcap : 0 < capacity) (hi : i < capacity)
    (hk : key ≠ ek) (ht : t < fuel)
    (hmin : ∀ s, s < t → keyAt ((i + 1 + s) % capacity) ≠ key ∧
      keyAt ((i + 1 + s) % capacity) ≠ ek) :
    (keyAt ((i + 1 + t) % capacity) = key →
      fancy_advance keyAt key ek capacity fuel i
        = some (some ((i + 1 + t) % capacity))) ∧
    (keyAt ((i + 1 + t) % capacity) = ek →
      fancy_advance keyAt key ek capacity fuel i = some none) := by
  induction t generalizing i fuel with
  | zero =>
    obtain ⟨fuel', rfl⟩ : ∃ f, fuel = f + 1 := ⟨fuel - 1, by omega⟩
    unfold fancy_advance
    rw [fancy_next_slot_eq_mod capacity i hi]
    constructor
    · intro hkey
      have : (i + 1) % capacity = (i + 1 + 0) % capacity := by norm_num
      rw [this] at hkey ⊢
      simp [fancy_scan, hkey]
    · intro hek
      have hne : keyAt ((i + 1 + 0) % capacity) ≠ key := by
        rw [hek]; exact fun hc => hk hc.symm
      have h1 : (i + 1) % capacity = (i + 1 + 0) % capacity := by norm_num
      rw [h1]
      simp only [fancy_scan]
      rw [if_neg hne, if_pos hek]
  | succ t ih =>
    obtain ⟨fuel', rfl⟩ : ∃ f, fuel = f + 1 := ⟨fuel - 1, by omega⟩
    have hi1 : (i + 1) % capacity < capacity := Nat.mod_lt _ hcap
    have hq1 : keyAt ((i + 1) % capacity) ≠ key := by
      have := (hmin 0 (by omega)).1
      simpa using this
    have hq2 : keyAt ((i + 1) % capacity) ≠ ek := by
      have := (hmin 0 (by omega)).2
      simpa using this
    have hshift : ∀ s : ℕ, ((i + 1) % capacity + 1 + s) % capacity
        = (i + 1 + (s + 1)) % capacity := by
      intro s
      have h1 : (i + 1) % capacity + 1 + s = (i + 1) % capacity + (1 + s) := by
        ring
      have h2 : i + 1 + (s + 1) = i + 1 + (1 + s) := by ring
      rw [h1, h2, Nat.mod_add_mod]
    have hadv : fancy_advance keyAt key ek capacity (fuel' + 1) i
        = fancy_advance keyAt key ek capacity fuel' ((i + 1) % capacity) := by
      unfold fancy_advance
      rw [fancy_next_slot_eq_mod capacity i hi]
      simp only [fancy_scan]
      rw [if_neg hq1, if_neg hq2]
    rw [hadv]
    have ihs := ih fuel' ((i + 1) % capacity) hi1 (by omega) (by
      intro s hs
      rw [hshift s]
      exact hmin (s + 1) (by omega))
    rw [hshift t] at ihs
    exact ihs

/-- Witness for `fancy_advance_spec`: table of capacity 4 with key 3 at
slots 0 and 2; advancing the iterator from slot 0 finds slot 2 (t = 1). -/
theorem fancy_advance_spec_witness :
    ((0 : ℕ) < 4 ∧ (0 : ℕ) < 4 ∧ (3 : ℤ) ≠ (-1 : ℤ) ∧ (1 : ℕ) < 4) ∧
    ((fun j : ℕ => if j = 0 then (3 : ℤ) else if j = 2 then 3 else 9)
        ((0 + 1 + 1) % 4) = 3 →
      fancy_advance (fun j : ℕ => if j = 0 then (3 : ℤ) else if j = 2 then 3 else 9)
        3 (-1) 4 4 0 = some (some ((0 + 1 + 1) % 4))) := by
  refine ⟨⟨by decide, by decide, by decide, by decide⟩, ?_⟩
  exact (fancy_advance_spec
    (fun j : ℕ => if j = 0 then (3 : ℤ) else if j = 2 then 3 else 9)
    3 (-1) 4 4 0 1 (by decide) (by decide) (by decide) (by decide)
    (by decide)).1

/-- Modelled from the spec: `device_view::find` is declared in
src/unnamed/part_000:986 but its body lives in detail/static_multimap.inl,
which is not in src/. Spec section 4.4: probe from `initial_slot`
(`hash(k) % capacity`, linear stepping with wraparound); at each slot, the
empty-key sentinel means provably absent (return the end iterator, here
`some ev` for the bulk result), a key match returns that slot's value, and
otherwise probing continues. `none` models fuel running out (the probe loop
still running). -/
def find_value (slots : ℕ → ℤ × ℤ) (k ek ev : ℤ) (capacity : ℕ) :
    ℕ → ℕ → Option ℤ
  | 0, _ => none
  | fuel + 1, i =>
    if (slots i).1 = ek then some ev
    else if (slots i).1 = k then some (slots i).2
    else find_value slots k ek ev capacity fuel ((i + 1) % capacity)

/-- Modelled from the spec: the host bulk `find` (declared in
src/unnamed/part_000:223-228, body in detail kernels not in src/) writes,
for each input key at position `i`, one output at position `i`: the value
found for that key, or the empty-value sentinel when absent. -/
def bulk_find (slots : ℕ → ℤ × ℤ) (ek ev : ℤ) (capacity : ℕ)
    (hash : ℤ → ℕ) (keys : List ℤ) : List (Option ℤ) :=
  keys.map (fun k => find_value slots k ek ev capacity capacity (hash k % capacity))

theorem find_value_sound (slots : ℕ → ℤ × ℤ) (k ek ev : ℤ) (capacity : ℕ)
    (hcap : 0 < capacity) :
    ∀ fuel i, i < capacity → ∀ v,
      find_value slots k ek ev capacity fuel i = some v → v ≠ ev →
      ∃ j, j < capacity ∧ slots j = (k, v) := by
  intro fuel
  induction fuel with
  | zero => intro i _ v h; cases h
  | succ fuel ih =>
    intro i hi v h hv
    by_cases hek : (slots i).1 = ek
    · simp only [find_value, if_pos hek] at h
      cases h
      exact absurd rfl hv
    · by_cases hkey : (slots i).1 = k
      · simp only [find_value, if_neg hek, if_pos hkey] at h
        cases h
        refine ⟨i, hi, ?_⟩
        have : slots i = ((slots i).1, (slots i).2) := rfl
        rw [this, hkey]
      · simp only [find_value, if_neg hek, if_neg hkey] at h
        exact ih ((i + 1) % capacity) (Nat.mod_lt _ hcap) v h hv

theorem find_value_absent (slots : ℕ → ℤ × ℤ) (k ek ev : ℤ) (capacity : ℕ)
    (hcap : 0 < capacity) (habs : ∀ j, j < capacity → (slots j).1 ≠ k) :
    ∀ fuel i, i < capacity →
      (∃ t, t < fuel ∧ (slots ((i + t) % capacity)).1 = ek) →
      find_value slots k ek ev capacity fuel i = some ev := by
  intro fuel
  induction fuel with
  | zero => rintro i _ ⟨t, ht, _⟩; omega
  | succ fuel ih =>
    rintro i hi ⟨t, ht, hek⟩
    by_cases h0 : (slots i).1 = ek
    · simp [find_value, h0]
    · have hne : (slots i).1 ≠ k := habs i hi
      simp only [find_value, if_neg h0, if_neg hne]
      apply ih ((i + 1) % capacity) (Nat.mod_lt _ hcap)
      obtain ⟨t', rfl⟩ : ∃ t', t = t' + 1 := by
        rcases Nat.eq_zero_or_pos t with h | h
        · exfalso
          subst h
          rw [Nat.add_zero, Nat.mod_eq_of_lt hi] at hek
          exact h0 hek
        · exact ⟨t - 1, by omega⟩
      refine ⟨t', by omega, ?_⟩
      have e1 : ((i + 1) % capacity + t') % capacity
          = (i + (t' + 1)) % capacity := by
        rw [Nat.mod_add_mod]
        congr 1
        ring
      rw [e1]
      exact hek

theorem getD_map_find (f : ℤ → Option ℤ) (l : List ℤ) :
    ∀ i, i < l.length → (l.map f).getD i none = f (l.getD i 0) := by
  induction l with
  | nil => intro i hi; simp at hi
  | cons a l ih =>
    intro i hi
    cases i with
    | zero => simp [List.getD]
    | succ i =>
      have hi' : i < l.length := by simpa using Nat.lt_of_succ_lt_succ hi
      have := ih i hi'
      simpa [List.getD] using this

/-- C7: the host bulk find produces exactly one output per input key, at
the corresponding output position; an output other than the empty-value
sentinel is a value actually associated with that key in some slot, and a
key that occurs in no slot (in a table that still has an empty slot, so
the probe terminates) yields the empty-value sentinel — a normal result,
not an error. -/
theorem bulk_find_spec (slots : ℕ → ℤ × ℤ) (ek ev : ℤ) (capacity : ℕ)
    (hash : ℤ → ℕ) (keys : List ℤ) (hcap : 0 < capacity) :
    (bulk_find slots ek ev capacity hash keys).length = keys.length ∧
    ∀ i, i < keys.length →
      (bulk_find slots ek ev capacity hash keys).getD i none
        = find_value slots (keys.getD i 0) ek ev capacity capacity
            (hash (keys.getD i 0) % capacity) ∧
      (∀ v, (bulk_find slots ek ev capacity hash keys).getD i none = some v →
        v ≠ ev → ∃ j, j < capacity ∧ slots j = (keys.getD i 0, v)) ∧
      ((∃ j, j < capacity ∧ (slots j).1 = ek) →
       (∀ j, j < capacity → (slots j).1 ≠ keys.getD i 0) →
        (bulk_find slots ek ev capacity hash keys).getD i none = some ev) := by
  constructor
  · exact List.length_map keys _
  · intro i hi
    have hpos : (bulk_find slots ek ev capacity hash keys).getD i none
        = find_value slots (keys.getD i 0) ek ev capacity capacity
            (hash (keys.getD i 0) % capacity) :=
      getD_map_find _ keys i hi
    refine ⟨hpos, ?_, ?_⟩
    · intro v hv hne
      rw [hpos] at hv
      exact find_value_sound slots (keys.getD i 0) ek ev capacity hcap
        capacity _ (Nat.mod_lt _ hcap) v hv hne
    · rintro ⟨j, hj, hek⟩ habs
      rw [hpos]
      apply find_value_absent slots (keys.getD i 0) ek ev capacity hcap habs
        capacity _ (Nat.mod_lt _ hcap)
      set i0 := hash (keys.getD i 0) % capacity with hi0
      have hi0lt : i0 < capacity := Nat.mod_lt _ hcap
      refine ⟨(j + capacity - i0) % capacity, Nat.mod_lt _ hcap, ?_⟩
      have e1 : (i0 + (j + capacity - i0) % capacity) % capacity
          = (i0 + (j + capacity - i0)) % capacity := Nat.add_mod_mod _ _ _
      have e2 : i0 + (j + capacity - i0) = j + capacity := by omega
      rw [e1, e2, Nat.add_mod_right, Nat.mod_eq_of_lt hj]
      exact hek

/-- Witness for `bulk_find_spec`: capacity 4, pair (2, 30) in slot 1,
keys [2, 5]. -/
theorem bulk_find_spec_witness :
    (0 : ℕ) < 4 ∧
    (bulk_find (fun j => if j = 1 then ((2 : ℤ), (30 : ℤ)) else (-1, -1))
        (-1) (-1) 4 (fun k => k.natAbs) [2, 5]).length
      = ([2, 5] : List ℤ).length :=
  ⟨by decide,
    (bulk_find_spec (fun j => if j = 1 then ((2 : ℤ), (30 : ℤ)) else (-1, -1))
      (-1) (-1) 4 (fun k => k.natAbs) [2, 5] (by decide)).1⟩

/-- Byte `i` (little-endian) of a key's raw bit pattern. -/
def byteOf (key i : ℕ) : ℕ := key / 256 ^ i % 256

/-- Modelled from the spec: `load_chunk` lives in
detail/hash_functions/utils.cuh, which is not in src/; per the spec the
identity hash "truncates/extracts the key's raw bit pattern", so a chunk
load reads an aligned 4-byte little-endian window of the key's bytes. -/
def load_chunk32 (bytes : ℕ → ℕ) (offset : ℕ) : ℕ :=
  bytes offset + bytes (offset + 1) * 256 + bytes (offset + 2) * 256 ^ 2
    + bytes (offset + 3) * 256 ^ 3

/-- Modelled from the spec: 8-byte little-endian chunk load (see
`load_chunk32`). -/
def load_chunk64 (bytes : ℕ → ℕ) (offset : ℕ) : ℕ :=
  bytes offset + bytes (offset + 1) * 256 + bytes (offset + 2) * 256 ^ 2
    + bytes (offset + 3) * 256 ^ 3 + bytes (offset + 4) * 256 ^ 4
    + bytes (offset + 5) * 256 ^ 5 + bytes (offset + 6) * 256 ^ 6
    + bytes (offset + 7) * 256 ^ 7

/-- Embeds `IdentityHash_32::compute_hash` followed by the seed XOR
(src/include/cuco/detail/hash_functions/identityhash.cuh:74-89): for a key
of `width ≥ 4` bytes, load the 4 bytes at offset `width - 4`; otherwise
mask byte 0 with `(1 << width/2) << (width/2 + width%2)` (a `uint32_t`,
hence the truncation); XOR the seed in either case. -/
def identity_hash_32 (width seed key : ℕ) : ℕ :=
  if 4 ≤ width then load_chunk32 (byteOf key) (width - 4) ^^^ seed
  else (byteOf key 0 &&&
    (2 ^ (width / 2) * 2 ^ (width / 2 + width % 2) % 2 ^ 32)) ^^^ seed

/-- Embeds `IdentityHash_64::compute_hash` followed by the seed XOR
(src/include/cuco/detail/hash_functions/identityhash.cuh:142-157): for a
key of `width ≥ 8` bytes, load the 8 bytes at offset 0 (the computed
`offset` is unused by the source); otherwise mask byte 0 using
`shift = width - 1`; XOR the seed in either case. -/
def identity_hash_64 (width seed key : ℕ) : ℕ :=
  if 8 ≤ width then load_chunk64 (byteOf key) 0 ^^^ seed
  else (byteOf key 0 &&&
    (2 ^ ((width - 1) / 2) * 2 ^ ((width - 1) / 2 + (width - 1) % 2) % 2 ^ 64)) ^^^ seed

theorem load_chunk32_reconstruct (k : ℕ) (h : k < 2 ^ 32) :
    load_chunk32 (byteOf k) 0 = k := by
  unfold load_chunk32 byteOf
  norm_num
  omega

theorem load_chunk64_reconstruct (k : ℕ) (h : k < 2 ^ 64) :
    load_chunk64 (byteOf k) 0 = k := by
  unfold load_chunk64 byteOf
  norm_num
  omega

/-- C8: the identity hash collaborators return the key's raw bit pattern
XORed with the seed: `IdentityHash_32` on a 4-byte key and
`IdentityHash_64` on an 8-byte key extract exactly the key's bits; in
particular, with seed 0 they return the key itself. -/
theorem identity_hash_self (k32 s32 k64 s64 : ℕ)
    (h32 : k32 < 2 ^ 32) (h64 : k64 < 2 ^ 64) :
    identity_hash_32 4 s32 k32 = k32 ^^^ s32 ∧
    identity_hash_32 4 0 k32 = k32 ∧
    identity_hash_64 8 s64 k64 = k64 ^^^ s64 ∧
    identity_hash_64 8 0 k64 = k64 := by
  have e32 := load_chunk32_reconstruct k32 h32
  have e64 := load_chunk64_reconstruct k64 h64
  refine ⟨?_, ?_, ?_, ?_⟩ <;>
    simp [identity_hash_32, identity_hash_64, e32, e64]

/-- Witness for `identity_hash_self` at keys 123456 and 987654321, seeds
77 and 99. -/
theorem identity_hash_self_witness :
    (123456 : ℕ) < 2 ^ 32 ∧ (987654321 : ℕ) < 2 ^ 64 ∧
    (identity_hash_32 4 77 123456 = 123456 ^^^ 77 ∧
     identity_hash_32 4 0 123456 = 123456 ∧
     identity_hash_64 8 99 987654321 = 987654321 ^^^ 99 ∧
     identity_hash_64 8 0 987654321 = 987654321) :=
  ⟨by norm_num, by norm_num,
    identity_hash_self 123456 77 987654321 99 (by norm_num) (by norm_num)⟩
